import Mathlib

/-!
Verification development for `mastertickets/graphviz.py`: an in-memory model
of attributed digraphs (`Node`, `Edge`, `Graph`), its dot-text serializer
(`Graph.__str__`) and the external renderer driver (`Graph.render`).

Python objects live in an explicit arena (`World`): nodes and edges are
addressed by their position in `World.nodeHeap` / `World.edgeHeap`, which
plays the role of CPython object identity (`id`).  Mutation of a Python
object becomes an update of the arena.
-/

namespace Mastertickets

/-- Model of a Python value as handed to `_handle_attribute_value`.
`str` is a Python `str`; `intV` a Python `int`; `dict` a builtin Python 3
`dict`, as its key/value pairs in insertion order — in Python 3 builtin
mappings have no `iteritems` method, so `hasattr(value, 'iteritems')` is
false for them and they are NOT caught by the mapping branch of the
formatter; `mapping` a user-defined object that does expose `iteritems` (a
Python-2-style mapping), carrying the pairs `iteritems` yields and the
string its `repr` produces; `seq` a `list` or `tuple`; `other` any other
object, carrying the string its `repr` produces. -/
inductive Value where
  | str : String → Value
  | intV : Int → Value
  | dict : List (String × Value) → Value
  | mapping : List (String × Value) → String → Value
  | seq : List Value → Value
  | other : String → Value

mutual

/-- Python `repr` on the modelled values: decimal form for an `int`,
`\x7b'k': repr(v), ...\x7d` for a builtin dict, `[repr(v), ...]` for a
list, the carried representation string for a user object.  A `str` without
special characters is represented as itself in single quotes (`\x27`). -/
def pyRepr : Value → String
  | .str s => "\x27" ++ s ++ "\x27"
  | .intV n => toString n
  | .dict ps => "\x7b" ++ String.intercalate ", " (reprPairs ps) ++ "\x7d"
  | .mapping _ r => r
  | .seq vs => "[" ++ String.intercalate ", " (reprElems vs) ++ "]"
  | .other r => r

/-- The list of `'key': repr(value)` fragments of a builtin dict `repr`. -/
def reprPairs : List (String × Value) → List String
  | [] => []
  | (k, v) :: rest => ("\x27" ++ k ++ "\x27: " ++ pyRepr v) :: reprPairs rest

/-- The list of `repr(value)` fragments of a list `repr`. -/
def reprElems : List Value → List String
  | [] => []
  | v :: rest => pyRepr v :: reprElems rest

end

mutual

/-- Embedding of `_handle_attribute_value` (graphviz.py lines 27-38): a
string passes through; a value with an `iteritems` attribute — in this
Python 3 program only a user-defined Python-2-style mapping object, never a
builtin `dict` — becomes `', '.join(f'{k}={rec(v)}')` over its pairs; a
list or tuple becomes `', '.join(rec(v))` over its elements; anything else,
a builtin `dict` included, falls through to `repr(value)`. -/
def _handle_attribute_value : Value → String
  | .str s => s
  | .mapping ps _ => String.intercalate ", " (handleMappingPairs ps)
  | .seq vs => String.intercalate ", " (handleSeqElems vs)
  | v => pyRepr v

/-- The list `[f'{k}={_handle_attribute_value(v)}' for k, v in value.iteritems()]`. -/
def handleMappingPairs : List (String × Value) → List String
  | [] => []
  | (k, v) :: rest => (k ++ "=" ++ _handle_attribute_value v) :: handleMappingPairs rest

/-- The list `[_handle_attribute_value(v) for v in value]`. -/
def handleSeqElems : List Value → List String
  | [] => []
  | v :: rest => _handle_attribute_value v :: handleSeqElems rest

end

/-- A Python `Node` object (graphviz.py lines 62-68): its `name`, its
attribute dict (a `dict` subclass instance, kept as key/value pairs in
insertion order) and its incident-edge list `edges` (arena indices into
`World.edgeHeap`). -/
structure NodeObj where
  name : String
  attrs : List (String × Value)
  edges : List Nat

/-- A Python `Edge` object (graphviz.py lines 40-46): `source` and `dest` are
arena indices into `World.nodeHeap`; `attrs` is its attribute dict. -/
structure EdgeObj where
  source : Nat
  dest : Nat
  attrs : List (String × Value)

/-- The arena of allocated Python objects: an index into a heap plays the
role of CPython object identity (`id`). -/
structure World where
  nodeHeap : List NodeObj
  edgeHeap : List EdgeObj

/-- Dereference a node index (total for convenience; the operations below
only ever produce in-range indices). -/
def World.node (w : World) (i : Nat) : NodeObj :=
  w.nodeHeap.getD i ⟨"", [], []⟩

/-- Dereference an edge index. -/
def World.edge? (w : World) (j : Nat) : Option EdgeObj :=
  w.edgeHeap.get? j

/-- Replace the element at index `i` by `f` applied to it (in-place mutation
of a heap cell). -/
def listModify (f : α → α) : Nat → List α → List α
  | _, [] => []
  | 0, x :: rest => f x :: rest
  | n + 1, x :: rest => x :: listModify f n rest

/-- Embedding of `Node.__gt__` (graphviz.py lines 79-84): `node_a > node_b`
allocates `Edge(node_a, node_b)`, appends it to both endpoints' `edges`
lists, and returns it. -/
def nodeGt (w : World) (a b : Nat) : World × Nat :=
  let j := w.edgeHeap.length
  let w1 : World := { w with edgeHeap := w.edgeHeap ++ [⟨a, b, []⟩] }
  let w2 : World := { w1 with nodeHeap := listModify (fun nd => { nd with edges := nd.edges ++ [j] }) a w1.nodeHeap }
  let w3 : World := { w2 with nodeHeap := listModify (fun nd => { nd with edges := nd.edges ++ [j] }) b w2.nodeHeap }
  (w3, j)

/-- A Python `Graph` object (graphviz.py lines 96-106): `nodes` is the
top-level node list, `node_map` the name-to-node registry (a `dict`, kept in
insertion order), `attributes` the graph-level attribute dict, `edges` the
top-level edge list. -/
structure Graph where
  name : String
  nodes : List Nat
  node_map : List (String × Nat)
  attributes : List (String × String)
  edges : List Nat
deriving DecidableEq

/-- `Graph(name)` (graphviz.py lines 99-106). -/
def Graph.init (name : String) : Graph :=
  ⟨name, [], [], [], []⟩

/-- Lookup in the `node_map` dict. -/
def assocLookup (m : List (String × Nat)) (k : String) : Option Nat :=
  (m.find? (fun kv => kv.1 == k)).map (fun kv => kv.2)

/-- Python dict assignment `m[k] = v`: overwrite in place if the key exists,
else append the new entry (dicts preserve insertion order). -/
def dictSet (m : List (String × Nat)) (k : String) (v : Nat) : List (String × Nat) :=
  if (m.find? (fun kv => kv.1 == k)).isSome then
    m.map (fun kv => if kv.1 == k then (k, v) else kv)
  else
    m ++ [(k, v)]

/-- The argument of `Graph.add`: a `Node`, an `Edge`, or anything else
(the two `isinstance` branches ignore other inputs). -/
inductive Obj where
  | nodeRef : Nat → Obj
  | edgeRef : Nat → Obj
  | otherRef : Obj

/-- Embedding of `Graph.add` (graphviz.py lines 108-113): a `Node` is
appended to `nodes` and assigned into `_node_map` under its name; an `Edge`
is appended to `edges`; anything else is a no-op. -/
def Graph.add (w : World) (g : Graph) (obj : Obj) : Graph :=
  match obj with
  | .nodeRef i => { g with nodes := g.nodes ++ [i], node_map := dictSet g.node_map (w.node i).name i }
  | .edgeRef j => { g with edges := g.edges ++ [j] }
  | .otherRef => g

/-- Embedding of `Graph.__getitem__` (graphviz.py lines 115-120),
lookup-or-create: if `key` is not registered, allocate `Node(key)`, insert
it into the registry and append it to the top-level list; return the
registered node. -/
def Graph.getItem (w : World) (g : Graph) (key : String) : World × Graph × Nat :=
  match assocLookup g.node_map key with
  | some i => (w, g, i)
  | none =>
    let i := w.nodeHeap.length
    let w' : World := { w with nodeHeap := w.nodeHeap ++ [⟨key, [], []⟩] }
    (w', { g with node_map := dictSet g.node_map key i, nodes := g.nodes ++ [i] }, i)

/-- Python exceptions the modelled operations can raise. -/
inductive PyError where
  | keyError
  | valueError
  | attributeError
deriving DecidableEq

mutual

/-- Python `==` on modelled attribute values: strings, ints and their
representations compare by contents, lists and tuples elementwise, and a
builtin dict or mapping value by its pairs (exact whenever the iteration
orders agree, which every modelled operation preserves). -/
def valueBEq : Value → Value → Bool
  | .str a, .str b => a == b
  | .intV a, .intV b => a == b
  | .dict a, .dict b => pairListBEq a b
  | .mapping a _, .mapping b _ => pairListBEq a b
  | .seq a, .seq b => valueListBEq a b
  | .other a, .other b => a == b
  | _, _ => false

def valueListBEq : List Value → List Value → Bool
  | [], [] => true
  | a :: as, b :: bs => valueBEq a b && valueListBEq as bs
  | _, _ => false

def pairListBEq : List (String × Value) → List (String × Value) → Bool
  | [], [] => true
  | (k, v) :: as, (k2, v2) :: bs => k == k2 && valueBEq v v2 && pairListBEq as bs
  | _, _ => false

end

/-- Lookup in an attribute dict. -/
def valueLookup (m : List (String × Value)) (k : String) : Option Value :=
  (m.find? (fun kv => kv.1 == k)).map (fun kv => kv.2)

/-- Python `dict.__eq__`: equal size and every key of one maps to an equal
value in the other.  `Node` and `Edge` inherit this equality from `dict`
(they define `__hash__` but not `__eq__`), so two nodes compare equal
exactly when their attribute dicts do. -/
def dictBEq (a b : List (String × Value)) : Bool :=
  a.length == b.length &&
    a.all (fun kv => match valueLookup b kv.1 with
      | some v => valueBEq kv.2 v
      | none => false)

/-- `list.remove(x)` (CPython): delete the first element that is `x` itself
or compares `== x`; `none` when no element matches (a `ValueError`). -/
def listRemoveFirst (p : α → Bool) : List α → Option (List α)
  | [] => none
  | x :: rest => if p x then some rest else (listRemoveFirst p rest).map (fun l => x :: l)

/-- Embedding of `Graph.__delitem__` (graphviz.py lines 122-124):
`self._node_map.pop(key)` raises `KeyError` when `key` is unregistered
(graph unchanged); otherwise the registry entry is dropped and
`self.nodes.remove(node)` deletes the first top-level node that is the
popped node or whose attribute dict compares equal to it (`ValueError`,
with the registry already mutated, if none matches). -/
def Graph.delItem (w : World) (g : Graph) (key : String) : Option PyError × Graph :=
  match assocLookup g.node_map key with
  | none => (some .keyError, g)
  | some i =>
    let g1 : Graph := { g with node_map := g.node_map.eraseP (fun kv => kv.1 == key) }
    match listRemoveFirst (fun x => x == i || dictBEq (w.node x).attrs (w.node i).attrs) g1.nodes with
    | none => (some .valueError, g1)
    | some nodes' => (none, { g1 with nodes := nodes' })

/-- One mutating operation on a `Graph`: `register` (`Graph.add`),
lookup-or-create (`Graph.__getitem__`), or removal (`Graph.__delitem__`,
whose object state persists even when it raises). -/
inductive GOp where
  | opAdd : Obj → GOp
  | opVertex : String → GOp
  | opRemove : String → GOp

/-- Apply one operation to the arena and graph. -/
def applyOp : World × Graph → GOp → World × Graph
  | (w, g), .opAdd obj => (w, Graph.add w g obj)
  | (w, g), .opVertex name =>
    let r := Graph.getItem w g name
    (r.1, r.2.1)
  | (w, g), .opRemove name => (w, (Graph.delItem w g name).2)

/-- Apply a sequence of operations. -/
def applyOps (s : World × Graph) (ops : List GOp) : World × Graph :=
  ops.foldl applyOp s

/-- Condition under which the spec's list/registry invariant is provable: no
removals, and `register` is only invoked on a node whose name is not yet
registered (re-registering a same-named node overwrites the registry entry
but leaves the old node in the top-level list). -/
def freshOps : World → Graph → List GOp → Bool
  | _, _, [] => true
  | w, g, op :: rest =>
    (match op with
     | .opAdd (.nodeRef i) => (assocLookup g.node_map (w.node i).name).isNone
     | .opAdd _ => true
     | .opVertex _ => true
     | .opRemove _ => false) &&
    freshOps (applyOp (w, g) op).1 (applyOp (w, g) op).2 rest

/-- An entry of the traversal worklist and of the `memo` set of
`Graph.__str__`: a `Node` or `Edge` object, identified by its arena index
(object identity, which is what the identity-based `__hash__` of `Node` and
`Edge` makes the `memo` set discriminate on). -/
inductive Item where
  | node : Nat → Item
  | edge : Nat → Item
deriving DecidableEq

/-- State of the nested `process` closure of `Graph.__str__`: the `memo`
visited set (a list used as a set) and the `nodes` / `edges` output lists,
in first-discovery order. -/
structure TravState where
  memo : List Item
  outNodes : List Nat
  outEdges : List Nat
deriving DecidableEq

/-- Worklist formulation of the nested `process` function of `Graph.__str__`
(graphviz.py lines 158-180): pop the next item; skip it if memoised;
otherwise memoise it and, for a `Node`, append it to the node output and
process its incident edges before the rest of the worklist; for an `Edge`,
append it to the edge output and process its source and dest before the
rest.  This is the recursive `process` with each `process(children)` call
inlined ahead of the remaining iterations (the same depth-first visit
order).  `fuel` bounds the step count so the recursion is structural;
`serializeFuel` below always suffices to drain the worklist. -/
def process (w : World) : Nat → TravState → List Item → TravState
  | _, st, [] => st
  | 0, st, _ => st
  | fuel + 1, st, item :: rest =>
    if item ∈ st.memo then
      process w fuel st rest
    else
      let st1 : TravState := { st with memo := item :: st.memo }
      match item with
      | .node i =>
        match w.nodeHeap.get? i with
        | some nd => process w fuel { st1 with outNodes := st1.outNodes ++ [i] } (nd.edges.map Item.edge ++ rest)
        | none => process w fuel st1 rest
      | .edge j =>
        match w.edgeHeap.get? j with
        | some e => process w fuel { st1 with outEdges := st1.outEdges ++ [j] } (Item.node e.source :: Item.node e.dest :: rest)
        | none => process w fuel st1 rest

/-- Number of worklist pops an unvisited item can cost: itself plus the
children it pushes (a node pushes its incident edges, an edge its two
endpoints). -/
def itemWeight (w : World) : Item → Nat
  | .node i =>
    match w.nodeHeap.get? i with
    | some nd => 1 + nd.edges.length
    | none => 1
  | .edge j =>
    match w.edgeHeap.get? j with
    | some _ => 3
    | none => 1

/-- Every allocated object, as a traversal item. -/
def allItems (w : World) : List Item :=
  (List.range w.nodeHeap.length).map Item.node ++ (List.range w.edgeHeap.length).map Item.edge

/-- Upper bound on the remaining pops of `process`: the worklist length plus
the weight of every not-yet-memoised object. -/
def potential (w : World) (memo : List Item) (stack : List Item) : Nat :=
  stack.length + (((allItems w).filter (fun it => decide (it ∉ memo))).map (itemWeight w)).sum

/-- Fuel sufficient for the whole traversal of `Graph.__str__`. -/
def serializeFuel (w : World) (g : Graph) : Nat :=
  g.nodes.length + g.edges.length + ((allItems w).map (itemWeight w)).sum

/-- The traversal performed by `Graph.__str__` (graphviz.py lines 179-180):
`process(self.nodes)` followed by `process(self.edges)` with the shared
`memo`, i.e. one worklist holding the top-level nodes then the top-level
edges. -/
def Graph.traverse (w : World) (g : Graph) : TravState :=
  process w (serializeFuel w g) ⟨[], [], []⟩ (g.nodes.map Item.node ++ g.edges.map Item.edge)

/-- Total dereference of an edge index (the traversal only emits in-range
edge indices). -/
def World.edgeObj (w : World) (j : Nat) : EdgeObj :=
  w.edgeHeap.getD j ⟨0, 0, []⟩

/-- The line `\t"{node.name}" [{node_attrs}];` emitted for a discovered node
(graphviz.py lines 186-188). -/
def nodeLine (w : World) (i : Nat) : String :=
  let nd := w.node i
  "\t\"" ++ nd.name ++ "\" [" ++
    String.intercalate ", " (nd.attrs.map (fun kv => kv.1 ++ "=\"" ++ _handle_attribute_value kv.2 ++ "\"")) ++
    "];"

/-- The line `\t"{edge.source.name}" -> "{edge.dest.name}" [{edge_attrs}];`
emitted for a discovered edge, its `source`/`dest` keys filtered out of the
attribute dict (graphviz.py lines 190-192). -/
def edgeLine (w : World) (j : Nat) : String :=
  let e := w.edgeObj j
  "\t\"" ++ (w.node e.source).name ++ "\" -> \"" ++ (w.node e.dest).name ++ "\" [" ++
    String.intercalate ", "
      ((e.attrs.filter (fun kv => kv.1 != "source" && kv.1 != "dest")).map
        (fun kv => kv.1 ++ "=\"" ++ _handle_attribute_value kv.2 ++ "\"")) ++
    "];"

/-- The `lines` list built by `Graph.__str__` (graphviz.py lines 182-194):
header, graph-attribute lines, one line per discovered node, one line per
discovered edge, closing brace. -/
def graphLines (w : World) (g : Graph) : List String :=
  let st := Graph.traverse w g
  ["digraph \"" ++ g.name ++ "\" \x7b"]
    ++ g.attributes.map (fun kv => "\t" ++ kv.1 ++ "=\"" ++ kv.2 ++ "\";")
    ++ st.outNodes.map (nodeLine w)
    ++ st.outEdges.map (edgeLine w)
    ++ ["\x7d"]

/-- Embedding of `Graph.__str__` (graphviz.py lines 126-195): the serialized
dot text, the lines joined by newlines. -/
def Graph.toStr (w : World) (g : Graph) : String :=
  String.intercalate "\n" (graphLines w g)

/-- Outcome of the external `dot` process in `Graph.render`: captured stdout
bytes, captured stderr text, and the exit code. -/
structure ProcResult where
  out : List Nat
  err : String
  returncode : Int

/-- A warning sent to the logging collaborator: the joined command line, the
exit code and the diagnostic text. -/
structure LogWarning where
  cmd : String
  rc : Int
  error : String
deriving DecidableEq

/-- Embedding of `Graph.render` (graphviz.py lines 197-208).  `hasLog` says
whether `self.log` is configured (a logger object) or `None`.  The guard is
Python's `if self.log and error or p.returncode:`, which by precedence is
`(self.log and error) or p.returncode`; when it fires with `self.log` being
`None`, the call `self.log.warning(...)` raises `AttributeError`.  Otherwise
the captured stdout bytes are returned, with one warning logged when the
guard fired. -/
def Graph.render (_self : Graph) (hasLog : Bool) (dot_path fmt : String) (pr : ProcResult) :
    Except PyError (List Nat) × Option LogWarning :=
  let cmd := dot_path ++ " -T" ++ fmt
  if (hasLog && pr.err != "") || pr.returncode != 0 then
    if hasLog then
      (.ok pr.out, some ⟨cmd, pr.returncode, pr.err⟩)
    else
      (.error .attributeError, none)
  else
    (.ok pr.out, none)

/-! Concrete scenario data used by the theorems below. -/

/-- Arena for the spec's serialization scenario: node `A` with
`label="start"`, node `B` with `label="end"`, the edge `A -> B` with
`style="dashed"` (built as `Edge(a, b, style='dashed')`, so it is in neither
node's incident list). -/
def wScenario : World :=
  ⟨[⟨"A", [("label", .str "start")], []⟩, ⟨"B", [("label", .str "end")], []⟩],
   [⟨0, 1, [("style", .str "dashed")]⟩]⟩

/-- The scenario graph named `g`: both nodes and the edge registered via
`Graph.add`. -/
def gScenario : Graph :=
  Graph.add wScenario
    (Graph.add wScenario (Graph.add wScenario (Graph.init "g") (.nodeRef 0)) (.nodeRef 1))
    (.edgeRef 0)

/-- Arena holding two attribute-less nodes `A` and `B`. -/
def wAB : World :=
  ⟨[⟨"A", [], []⟩, ⟨"B", [], []⟩], []⟩

/-- Arena holding two distinct attribute-less node objects that share the
name `A`. -/
def wAA : World :=
  ⟨[⟨"A", [], []⟩, ⟨"A", [], []⟩], []⟩

/-- Graph with both nodes of `wAB` registered. -/
def gAB : Graph :=
  Graph.add wAB (Graph.add wAB (Graph.init "g") (.nodeRef 0)) (.nodeRef 1)

/-- Arena for the dangling-arc scenario: `A` (with a `label` attribute so
its attribute dict differs from `B`'s) and `B`, connected by the edge
`A -> B` sitting in both incident lists, as `node_a > node_b` leaves it. -/
def wDangling : World :=
  ⟨[⟨"A", [("label", .str "start")], [0]⟩, ⟨"B", [], [0]⟩], [⟨0, 1, []⟩]⟩

/-- Graph with both nodes of `wDangling` registered. -/
def gDangling : Graph :=
  Graph.add wDangling (Graph.add wDangling (Graph.init "g") (.nodeRef 0)) (.nodeRef 1)

/-! Helper lemmas. -/

theorem handleMappingPairs_eq (ps : List (String × Value)) :
    handleMappingPairs ps = ps.map (fun kv => kv.1 ++ "=" ++ _handle_attribute_value kv.2) := by
  induction ps with
  | nil => rfl
  | cons kv rest ih => cases kv; simp [handleMappingPairs, ih]

theorem handleSeqElems_eq (vs : List Value) :
    handleSeqElems vs = vs.map _handle_attribute_value := by
  induction vs with
  | nil => rfl
  | cons v rest ih => simp [handleSeqElems, ih]

/-- C1: for the graph named `g` with registered vertex `A`
(`label="start"`), registered vertex `B` (`label="end"`) and registered
top-level arc `A -> B` (`style="dashed"`), `serialize()` produces exactly
the five lines — header, the two vertex lines, the arc line and the closing
brace — joined by newlines in that order. -/
theorem serialize_scenario_five_lines :
    graphLines wScenario gScenario =
      ["digraph \"g\" \x7b",
       "\t\"A\" [label=\"start\"];",
       "\t\"B\" [label=\"end\"];",
       "\t\"A\" -> \"B\" [style=\"dashed\"];",
       "\x7d"] ∧
    Graph.toStr wScenario gScenario =
      "digraph \"g\" \x7b\n\t\"A\" [label=\"start\"];\n\t\"B\" [label=\"end\"];\n\t\"A\" -> \"B\" [style=\"dashed\"];\n\x7d" :=
  ⟨rfl, rfl⟩

/-- C2 (evaluating the code at the failing input): when no logging
collaborator is configured (`self.log` is `None`) and the process exits
with a non-zero status, the guard `if self.log and error or p.returncode:`
fires — by precedence it is `(self.log and error) or p.returncode` — and
`self.log.warning(...)` raises `AttributeError`, so `render` does not
return the captured bytes.  When a logger is configured, a failing render
does return the captured bytes and logs one warning carrying the joined
command, the exit code and the diagnostic text. -/
theorem render_without_logger_raises :
    Graph.render (Graph.init "g") false "dot" "png" ⟨[], "", 1⟩ = (.error .attributeError, none) ∧
    Graph.render (Graph.init "g") false "dot" "png" ⟨[55], "bad input", 2⟩ = (.error .attributeError, none) ∧
    Graph.render (Graph.init "g") true "dot" "png" ⟨[55], "bad input", 2⟩ =
      (.ok [55], some ⟨"dot -Tpng", 2, "bad input"⟩) ∧
    Graph.render (Graph.init "g") true "dot" "png" ⟨[55], "bad input", 0⟩ =
      (.ok [55], some ⟨"dot -Tpng", 0, "bad input"⟩) ∧
    Graph.render (Graph.init "g") false "dot" "png" ⟨[55], "", 0⟩ = (.ok [55], none) :=
  ⟨rfl, rfl, rfl, rfl, rfl⟩

/-- C3 (evaluating the code at the failing input): the mapping branch tests
`hasattr(value, 'iteritems')`, a Python 2 relic — no Python 3 builtin
mapping has `iteritems` — so the claim's own instance, the builtin dict
`\x7bx: 1, y: 2\x7d`, is not caught by that branch and falls through to the
`repr` fallback, formatting as `\x7b'x': 1, 'y': 2\x7d` rather than the
claimed `x=1, y=2`.  The remaining branches behave as claimed: strings pass
through, sequences become their comma-joined recursively formatted elements
(`[a, b]` formats to `a, b`), any other value degrades to its `repr`, and
the formatter is total.  Only a user-defined object that itself exposes
`iteritems` reaches the claimed `key=formatted(value)` behaviour. -/
theorem dict_formats_as_repr_not_pairs :
    _handle_attribute_value (.dict [("x", .intV 1), ("y", .intV 2)]) =
      "\x7b\x27x\x27: 1, \x27y\x27: 2\x7d" ∧
    _handle_attribute_value (.dict [("x", .intV 1), ("y", .intV 2)]) ≠ "x=1, y=2" ∧
    (∀ s, _handle_attribute_value (.str s) = s) ∧
    _handle_attribute_value (.seq [.str "a", .str "b"]) = "a, b" ∧
    (∀ vs, _handle_attribute_value (.seq vs) =
      String.intercalate ", " (vs.map _handle_attribute_value)) ∧
    (∀ r, _handle_attribute_value (.other r) = r) ∧
    (∀ ps r, _handle_attribute_value (.mapping ps r) =
      String.intercalate ", " (ps.map (fun kv => kv.1 ++ "=" ++ _handle_attribute_value kv.2))) ∧
    _handle_attribute_value (.mapping [("x", .intV 1), ("y", .intV 2)] "obj") = "x=1, y=2" := by
  refine ⟨rfl, by decide, fun s => rfl, rfl, fun vs => ?_, fun r => rfl, fun ps r => ?_, rfl⟩
  · show String.intercalate ", " (handleSeqElems vs) = _
    rw [handleSeqElems_eq]
  · show String.intercalate ", " (handleMappingPairs ps) = _
    rw [handleMappingPairs_eq]

theorem assocLookup_none_find?_none {m : List (String × Nat)} {k : String}
    (h : assocLookup m k = none) : m.find? (fun kv => kv.1 == k) = none := by
  simp only [assocLookup, Option.map_eq_none'] at h
  exact h

theorem dictSet_of_not_mem {m : List (String × Nat)} {k : String} (v : Nat)
    (h : assocLookup m k = none) : dictSet m k v = m ++ [(k, v)] := by
  simp [dictSet, assocLookup_none_find?_none h]

theorem assocLookup_append_self {m : List (String × Nat)} {k : String} (v : Nat)
    (h : assocLookup m k = none) : assocLookup (m ++ [(k, v)]) k = some v := by
  induction m with
  | nil => simp [assocLookup]
  | cons kv rest ih =>
    simp only [assocLookup, List.find?, List.cons_append] at h ⊢
    cases hk : (kv.1 == k) with
    | true => simp [hk] at h
    | false => simp only [hk] at h ⊢; exact ih h

theorem getD_append_length (l : List α) (x d : α) : (l ++ [x]).getD l.length d = x := by
  induction l with
  | nil => rfl
  | cons y rest ih => simpa using ih

theorem listModify_length (f : α → α) (i : Nat) (l : List α) :
    (listModify f i l).length = l.length := by
  induction l generalizing i with
  | nil => cases i <;> rfl
  | cons x rest ih =>
    cases i with
    | zero => rfl
    | succ n => simp [listModify, ih]

theorem getD_listModify_self (f : α → α) (d : α) (i : Nat) (l : List α) (h : i < l.length) :
    (listModify f i l).getD i d = f (l.getD i d) := by
  induction l generalizing i with
  | nil => simp at h
  | cons x rest ih =>
    cases i with
    | zero => rfl
    | succ n => simpa [listModify] using ih n (by simpa using h)

theorem getD_listModify_ne (f : α → α) (d : α) (i x : Nat) (l : List α) (h : x ≠ i) :
    (listModify f i l).getD x d = l.getD x d := by
  induction l generalizing i x with
  | nil => cases i <;> rfl
  | cons y rest ih =>
    cases i with
    | zero =>
      cases x with
      | zero => exact absurd rfl h
      | succ m => rfl
    | succ n =>
      cases x with
      | zero => rfl
      | succ m => simpa [listModify] using ih n m (by omega)

/-- Registry values stay aligned with the top-level list along any
`freshOps`-admissible operation sequence. -/
theorem freshOps_values_eq_nodes (ops : List GOp) : ∀ (w : World) (g : Graph),
    freshOps w g ops = true →
    g.node_map.map Prod.snd = g.nodes →
    (applyOps (w, g) ops).2.node_map.map Prod.snd = (applyOps (w, g) ops).2.nodes := by
  induction ops with
  | nil => intro w g _ h; exact h
  | cons op rest ih =>
    intro w g hf h
    have hstep : applyOps (w, g) (op :: rest) = applyOps (applyOp (w, g) op) rest := rfl
    rw [hstep]
    cases op with
    | opAdd obj =>
      cases obj with
      | nodeRef i =>
        simp only [freshOps, Bool.and_eq_true] at hf
        have hn : assocLookup g.node_map (w.node i).name = none := by
          simpa [Option.isNone_iff_eq_none] using hf.1
        refine ih _ _ hf.2 ?_
        simp [applyOp, Graph.add, dictSet_of_not_mem _ hn, h]
      | edgeRef j =>
        simp only [freshOps, Bool.and_eq_true] at hf
        refine ih _ _ hf.2 ?_
        simpa [applyOp, Graph.add] using h
      | otherRef =>
        simp only [freshOps, Bool.and_eq_true] at hf
        refine ih _ _ hf.2 ?_
        simpa [applyOp, Graph.add] using h
    | opVertex name =>
      simp only [freshOps, Bool.and_eq_true] at hf
      refine ih _ _ hf.2 ?_
      cases hl : assocLookup g.node_map name with
      | some i => simpa [applyOp, Graph.getItem, hl] using h
      | none => simp [applyOp, Graph.getItem, hl, dictSet_of_not_mem _ hl, h]
    | opRemove name => simp [freshOps] at hf

/-- C5 (amended): starting from a freshly constructed graph, after any
sequence of lookup-or-create operations and registrations of vertices whose
names are not yet registered — and no removals — a vertex is in the
top-level list exactly when it is a value of the registry. -/
theorem list_registry_invariant_no_remove (w0 : World) (name : String) (ops : List GOp)
    (hf : freshOps w0 (Graph.init name) ops = true) (i : Nat) :
    i ∈ (applyOps (w0, Graph.init name) ops).2.nodes ↔
      i ∈ (applyOps (w0, Graph.init name) ops).2.node_map.map Prod.snd := by
  rw [freshOps_values_eq_nodes ops w0 (Graph.init name) hf rfl]

theorem list_registry_invariant_no_remove_witness :
    freshOps wAB (Graph.init "g") [.opAdd (.nodeRef 0), .opVertex "X"] = true ∧
    (0 ∈ (applyOps (wAB, Graph.init "g") [.opAdd (.nodeRef 0), .opVertex "X"]).2.nodes ↔
      0 ∈ (applyOps (wAB, Graph.init "g") [.opAdd (.nodeRef 0), .opVertex "X"]).2.node_map.map Prod.snd) :=
  ⟨by decide, list_registry_invariant_no_remove wAB "g" [.opAdd (.nodeRef 0), .opVertex "X"] (by decide) 0⟩

/-- C5 counterexample, two independent violations.  First: registering two
distinct vertices that share the name `A` overwrites the registry entry but
leaves the first vertex in the top-level list, so it is top-level without
being registered.  Second: register the attribute-less nodes `A` then `B`
and remove `B`.  `_node_map.pop` drops `B`, but `self.nodes.remove(node)` —
list removal by `==`, which `Node` inherits from `dict` — deletes `A`, the
first node with an equal (empty) attribute dict.  Afterwards `B` (index 1)
is in the top-level list but not among the registry values, and `A`
(index 0) is a registry value but not in the top-level list. -/
theorem list_registry_invariant_fails :
    (applyOps (wAA, Graph.init "g") [.opAdd (.nodeRef 0), .opAdd (.nodeRef 1)]).2 =
      ⟨"g", [0, 1], [("A", 1)], [], []⟩ ∧
    0 ∈ (applyOps (wAA, Graph.init "g") [.opAdd (.nodeRef 0), .opAdd (.nodeRef 1)]).2.nodes ∧
    0 ∉ (applyOps (wAA, Graph.init "g") [.opAdd (.nodeRef 0), .opAdd (.nodeRef 1)]).2.node_map.map Prod.snd ∧
    (applyOps (wAB, Graph.init "g") [.opAdd (.nodeRef 0), .opAdd (.nodeRef 1), .opRemove "B"]).2 =
      ⟨"g", [1], [("A", 0)], [], []⟩ ∧
    1 ∈ (applyOps (wAB, Graph.init "g") [.opAdd (.nodeRef 0), .opAdd (.nodeRef 1), .opRemove "B"]).2.nodes ∧
    1 ∉ (applyOps (wAB, Graph.init "g") [.opAdd (.nodeRef 0), .opAdd (.nodeRef 1), .opRemove "B"]).2.node_map.map Prod.snd ∧
    0 ∉ (applyOps (wAB, Graph.init "g") [.opAdd (.nodeRef 0), .opAdd (.nodeRef 1), .opRemove "B"]).2.nodes ∧
    0 ∈ (applyOps (wAB, Graph.init "g") [.opAdd (.nodeRef 0), .opAdd (.nodeRef 1), .opRemove "B"]).2.node_map.map Prod.snd := by
  decide

/-- C6 (evaluating the code at the failing input): removing an unregistered
name raises `KeyError` with the graph unchanged; but removing the
registered, attribute-less `B` from `[A, B]` pops `B` from the registry and
then deletes `A` — the first list element whose (empty) attribute dict
compares `==` to `B`'s — so the removed vertex `B` (index 1) is still in
the top-level list and `A` (index 0) is gone. -/
theorem delitem_removes_wrong_node :
    Graph.delItem wAB gAB "C" = (some .keyError, gAB) ∧
    Graph.delItem wAB gAB "B" = (none, ⟨"g", [1], [("A", 0)], [], []⟩) ∧
    1 ∈ (Graph.delItem wAB gAB "B").2.nodes ∧
    0 ∉ (Graph.delItem wAB gAB "B").2.nodes := by
  decide

/-- C7: `vertex(name)` is lookup-or-create and idempotent: a registered
name returns the registered node with nothing modified; an unregistered
name allocates a fresh node carrying `name`, appends it to the top-level
list (where it then occurs exactly once), registers it, and a second call
returns the identical node with nothing modified. -/
theorem getItem_idempotent (w : World) (g : Graph) (name : String) :
    (∀ i, assocLookup g.node_map name = some i → Graph.getItem w g name = (w, g, i)) ∧
    (assocLookup g.node_map name = none →
      (∀ x ∈ g.nodes, x < w.nodeHeap.length) →
      ∀ w' g' i, Graph.getItem w g name = (w', g', i) →
        i = w.nodeHeap.length ∧
        (w'.node i).name = name ∧
        g'.nodes = g.nodes ++ [i] ∧
        assocLookup g'.node_map name = some i ∧
        g'.nodes.count i = 1 ∧
        Graph.getItem w' g' name = (w', g', i)) := by
  constructor
  · intro i hi
    simp [Graph.getItem, hi]
  · intro hnone hWF w' g' i heq
    simp only [Graph.getItem, hnone, Prod.mk.injEq] at heq
    obtain ⟨hw, hg, hi⟩ := heq
    subst hw hg hi
    have hmem : w.nodeHeap.length ∉ g.nodes := fun hmem =>
      absurd (hWF _ hmem) (lt_irrefl _)
    have hlook : assocLookup (dictSet g.node_map name w.nodeHeap.length) name =
        some w.nodeHeap.length := by
      rw [dictSet_of_not_mem _ hnone]
      exact assocLookup_append_self _ hnone
    refine ⟨rfl, ?_, rfl, hlook, ?_, ?_⟩
    · simp only [World.node, getD_append_length]
    · simp [List.count_append, List.count_eq_zero_of_not_mem hmem]
    · simp [Graph.getItem, hlook]

theorem getItem_idempotent_witness :
    ((⟨[⟨"A", [], []⟩], []⟩ : World).node 0).name = "A" ∧
    (⟨"g", [0], [("A", 0)], [], []⟩ : Graph).nodes.count 0 = 1 ∧
    Graph.getItem ⟨[⟨"A", [], []⟩], []⟩ ⟨"g", [0], [("A", 0)], [], []⟩ "A" =
      (⟨[⟨"A", [], []⟩], []⟩, ⟨"g", [0], [("A", 0)], [], []⟩, 0) := by
  have h := (getItem_idempotent (⟨[], []⟩ : World) (Graph.init "g") "A").2 rfl (by simp [Graph.init])
    (⟨[⟨"A", [], []⟩], []⟩ : World) (⟨"g", [0], [("A", 0)], [], []⟩ : Graph) 0 rfl
  exact ⟨h.2.1, h.2.2.2.2.1, h.2.2.2.2.2⟩

/-- C8: `node_a > node_b` on distinct nodes allocates exactly one new edge
with source `a` and dest `b`, appends it once to each endpoint's incident
list, leaves every node otherwise unchanged, and returns that edge. -/
theorem node_gt_appends_one_arc (w : World) (a b : Nat)
    (ha : a < w.nodeHeap.length) (hb : b < w.nodeHeap.length) (hab : a ≠ b) :
    ∀ w' j, nodeGt w a b = (w', j) →
      j = w.edgeHeap.length ∧
      w'.edgeHeap = w.edgeHeap ++ [⟨a, b, []⟩] ∧
      w'.edgeObj j = ⟨a, b, []⟩ ∧
      (w'.node a).edges = (w.node a).edges ++ [j] ∧
      (w'.node b).edges = (w.node b).edges ++ [j] ∧
      (w'.node a).name = (w.node a).name ∧ (w'.node a).attrs = (w.node a).attrs ∧
      (w'.node b).name = (w.node b).name ∧ (w'.node b).attrs = (w.node b).attrs ∧
      (∀ x, x ≠ a → x ≠ b → w'.node x = w.node x) ∧
      w'.nodeHeap.length = w.nodeHeap.length := by
  intro w' j heq
  simp only [nodeGt, Prod.mk.injEq] at heq
  obtain ⟨hw, hj⟩ := heq
  subst hw hj
  have hna : ∀ d, (listModify (fun nd => { nd with edges := nd.edges ++ [w.edgeHeap.length] }) b
      (listModify (fun nd => { nd with edges := nd.edges ++ [w.edgeHeap.length] }) a w.nodeHeap)).getD a d =
      (fun nd => { nd with edges := nd.edges ++ [w.edgeHeap.length] }) (w.nodeHeap.getD a d) := by
    intro d
    rw [getD_listModify_ne _ _ _ _ _ hab, getD_listModify_self _ _ _ _ ha]
  have hnb : ∀ d, (listModify (fun nd => { nd with edges := nd.edges ++ [w.edgeHeap.length] }) b
      (listModify (fun nd => { nd with edges := nd.edges ++ [w.edgeHeap.length] }) a w.nodeHeap)).getD b d =
      (fun nd => { nd with edges := nd.edges ++ [w.edgeHeap.length] }) (w.nodeHeap.getD b d) := by
    intro d
    rw [getD_listModify_self _ _ _ _ (by rw [listModify_length]; exact hb),
      getD_listModify_ne _ _ _ _ _ (Ne.symm hab)]
  refine ⟨rfl, rfl, ?_, ?_, ?_, ?_, ?_, ?_, ?_, ?_, ?_⟩
  · simp only [World.edgeObj, getD_append_length]
  · simp only [World.node, hna]
  · simp only [World.node, hnb]
  · simp only [World.node, hna]
  · simp only [World.node, hna]
  · simp only [World.node, hnb]
  · simp only [World.node, hnb]
  · intro x hxa hxb
    simp only [World.node]
    rw [getD_listModify_ne _ _ _ _ _ hxb, getD_listModify_ne _ _ _ _ _ hxa]
  · simp only [listModify_length]

theorem node_gt_appends_one_arc_witness :
    (nodeGt wAB 0 1).2 = wAB.edgeHeap.length ∧
    ((nodeGt wAB 0 1).1.node 0).edges = (wAB.node 0).edges ++ [(nodeGt wAB 0 1).2] ∧
    ((nodeGt wAB 0 1).1.node 1).edges = (wAB.node 1).edges ++ [(nodeGt wAB 0 1).2] := by
  have h := node_gt_appends_one_arc wAB 0 1 (by decide) (by decide) (by decide)
    (nodeGt wAB 0 1).1 (nodeGt wAB 0 1).2 rfl
  exact ⟨h.1, h.2.2.2.1, h.2.2.2.2.1⟩

/-! Equations of the traversal. -/

theorem process_nil (w : World) (fuel : Nat) (st : TravState) :
    process w fuel st [] = st := by
  cases fuel <;> rfl

theorem process_cons_mem {w : World} {fuel : Nat} {st : TravState} {item : Item}
    {rest : List Item} (h : item ∈ st.memo) :
    process w (fuel + 1) st (item :: rest) = process w fuel st rest := by
  simp [process, h]

theorem process_cons_node {w : World} {fuel : Nat} {st : TravState} {i : Nat}
    {rest : List Item} {nd : NodeObj} (h : Item.node i ∉ st.memo)
    (hnd : w.nodeHeap.get? i = some nd) :
    process w (fuel + 1) st (Item.node i :: rest) =
      process w fuel ⟨Item.node i :: st.memo, st.outNodes ++ [i], st.outEdges⟩
        (nd.edges.map Item.edge ++ rest) := by
  rw [List.get?_eq_getElem?] at hnd
  simp [process, h, hnd]

theorem process_cons_node_none {w : World} {fuel : Nat} {st : TravState} {i : Nat}
    {rest : List Item} (h : Item.node i ∉ st.memo) (hnd : w.nodeHeap.get? i = none) :
    process w (fuel + 1) st (Item.node i :: rest) =
      process w fuel ⟨Item.node i :: st.memo, st.outNodes, st.outEdges⟩ rest := by
  rw [List.get?_eq_getElem?] at hnd
  simp [process, h, hnd]

theorem process_cons_edge {w : World} {fuel : Nat} {st : TravState} {j : Nat}
    {rest : List Item} {e : EdgeObj} (h : Item.edge j ∉ st.memo)
    (he : w.edgeHeap.get? j = some e) :
    process w (fuel + 1) st (Item.edge j :: rest) =
      process w fuel ⟨Item.edge j :: st.memo, st.outNodes, st.outEdges ++ [j]⟩
        (Item.node e.source :: Item.node e.dest :: rest) := by
  rw [List.get?_eq_getElem?] at he
  simp [process, h, he]

theorem process_cons_edge_none {w : World} {fuel : Nat} {st : TravState} {j : Nat}
    {rest : List Item} (h : Item.edge j ∉ st.memo) (he : w.edgeHeap.get? j = none) :
    process w (fuel + 1) st (Item.edge j :: rest) =
      process w fuel ⟨Item.edge j :: st.memo, st.outNodes, st.outEdges⟩ rest := by
  rw [List.get?_eq_getElem?] at he
  simp [process, h, he]

/-! Claim-C4 invariant: outputs are memoised and duplicate-free. -/

theorem process_nodup (w : World) : ∀ (fuel : Nat) (st : TravState) (stack : List Item),
    (∀ i ∈ st.outNodes, Item.node i ∈ st.memo) →
    (∀ j ∈ st.outEdges, Item.edge j ∈ st.memo) →
    st.outNodes.Nodup → st.outEdges.Nodup →
    (∀ i ∈ (process w fuel st stack).outNodes, Item.node i ∈ (process w fuel st stack).memo) ∧
    (∀ j ∈ (process w fuel st stack).outEdges, Item.edge j ∈ (process w fuel st stack).memo) ∧
    (process w fuel st stack).outNodes.Nodup ∧
    (process w fuel st stack).outEdges.Nodup := by
  intro fuel
  induction fuel with
  | zero =>
    intro st stack h1 h2 h3 h4
    cases stack <;> exact ⟨h1, h2, h3, h4⟩
  | succ fuel ih =>
    intro st stack h1 h2 h3 h4
    cases stack with
    | nil => exact ⟨h1, h2, h3, h4⟩
    | cons item rest =>
      by_cases hmem : item ∈ st.memo
      · rw [process_cons_mem hmem]
        exact ih st rest h1 h2 h3 h4
      · cases item with
        | node i =>
          cases hnd : w.nodeHeap.get? i with
          | some nd =>
            rw [process_cons_node hmem hnd]
            refine ih _ _ ?_ ?_ ?_ h4
            · intro x hx
              rcases List.mem_append.mp hx with hx | hx
              · exact List.mem_cons_of_mem _ (h1 x hx)
              · rw [List.mem_singleton.mp hx]
                exact List.mem_cons_self _ _
            · intro x hx
              exact List.mem_cons_of_mem _ (h2 x hx)
            · have hni : i ∉ st.outNodes := fun hin => hmem (h1 i hin)
              simp [List.nodup_append, h3, hni]
          | none =>
            rw [process_cons_node_none hmem hnd]
            refine ih _ _ ?_ ?_ h3 h4
            · intro x hx
              exact List.mem_cons_of_mem _ (h1 x hx)
            · intro x hx
              exact List.mem_cons_of_mem _ (h2 x hx)
        | edge j =>
          cases he : w.edgeHeap.get? j with
          | some e =>
            rw [process_cons_edge hmem he]
            refine ih _ _ ?_ ?_ h3 ?_
            · intro x hx
              exact List.mem_cons_of_mem _ (h1 x hx)
            · intro x hx
              rcases List.mem_append.mp hx with hx | hx
              · exact List.mem_cons_of_mem _ (h2 x hx)
              · rw [List.mem_singleton.mp hx]
                exact List.mem_cons_self _ _
            · have hnj : j ∉ st.outEdges := fun hin => hmem (h2 j hin)
              simp [List.nodup_append, h4, hnj]
          | none =>
            rw [process_cons_edge_none hmem he]
            refine ih _ _ ?_ ?_ h3 h4
            · intro x hx
              exact List.mem_cons_of_mem _ (h1 x hx)
            · intro x hx
              exact List.mem_cons_of_mem _ (h2 x hx)

/-- C4: the serialized lines are the header, the graph-attribute lines, one
line per discovered vertex and one per discovered arc in first-discovery
order, and no vertex or arc is emitted twice (the discovery lists are
duplicate-free thanks to the identity-keyed `memo` set). -/
theorem serialize_emits_each_object_once (w : World) (g : Graph) :
    graphLines w g =
      ["digraph \"" ++ g.name ++ "\" \x7b"]
        ++ g.attributes.map (fun kv => "\t" ++ kv.1 ++ "=\"" ++ kv.2 ++ "\";")
        ++ (Graph.traverse w g).outNodes.map (nodeLine w)
        ++ (Graph.traverse w g).outEdges.map (edgeLine w)
        ++ ["\x7d"] ∧
    (Graph.traverse w g).outNodes.Nodup ∧
    (Graph.traverse w g).outEdges.Nodup := by
  have h := process_nodup w (serializeFuel w g) ⟨[], [], []⟩
    (g.nodes.map Item.node ++ g.edges.map Item.edge)
    (by intro i hi; simp at hi) (by intro j hj; simp at hj) List.nodup_nil List.nodup_nil
  exact ⟨rfl, h.2.2.1, h.2.2.2⟩

/-! Potential argument: `serializeFuel` always drains the worklist. -/

theorem allItems_nodup (w : World) : (allItems w).Nodup := by
  refine List.Nodup.append ?_ ?_ ?_
  · exact (List.nodup_range _).map (fun a b h => Item.node.inj h)
  · exact (List.nodup_range _).map (fun a b h => Item.edge.inj h)
  · intro x hx hy
    rcases List.mem_map.mp hx with ⟨i, _, rfl⟩
    rcases List.mem_map.mp hy with ⟨j, _, hj⟩
    exact Item.noConfusion hj

theorem node_mem_allItems {w : World} {i : Nat} :
    Item.node i ∈ allItems w ↔ i < w.nodeHeap.length := by
  simp [allItems]

theorem edge_mem_allItems {w : World} {j : Nat} :
    Item.edge j ∈ allItems w ↔ j < w.edgeHeap.length := by
  simp [allItems]

theorem filter_cons_not_valid {w : World} {memo : List Item} {item : Item}
    (h : item ∉ allItems w) :
    (allItems w).filter (fun it => decide (it ∉ item :: memo)) =
      (allItems w).filter (fun it => decide (it ∉ memo)) := by
  apply List.filter_congr
  intro x hx
  have hne : x ≠ item := fun he => h (he ▸ hx)
  rw [decide_eq_decide]
  simp [List.mem_cons, hne]

theorem sum_filter_cons_valid {w : World} {memo : List Item} {item : Item}
    (hv : item ∈ allItems w) (hm : item ∉ memo) :
    (((allItems w).filter (fun it => decide (it ∉ memo))).map (itemWeight w)).sum =
      itemWeight w item +
        (((allItems w).filter (fun it => decide (it ∉ item :: memo))).map (itemWeight w)).sum := by
  have hL : ((allItems w).filter (fun it => decide (it ∉ memo))).Nodup :=
    (allItems_nodup w).filter _
  have hmemL : item ∈ (allItems w).filter (fun it => decide (it ∉ memo)) :=
    List.mem_filter.mpr ⟨hv, by simp [hm]⟩
  have h1 : (allItems w).filter (fun it => decide (it ∉ item :: memo)) =
      ((allItems w).filter (fun it => decide (it ∉ memo))).filter (fun it => it != item) := by
    rw [List.filter_filter]
    apply List.filter_congr
    intro x hx
    by_cases hx1 : x = item <;> by_cases hx2 : x ∈ memo <;>
      simp [hx1, hx2, List.mem_cons]
  have h2 : ((allItems w).filter (fun it => decide (it ∉ memo))).filter (fun it => it != item) =
      ((allItems w).filter (fun it => decide (it ∉ memo))).erase item := by
    rw [hL.erase_eq_filter item]
  have hperm := List.perm_cons_erase hmemL
  have hsum := (hperm.map (itemWeight w)).sum_eq
  rw [h1, h2]
  simpa using hsum

/-- The traversal of `Graph.__str__` with adequate fuel visits everything it
reaches: afterwards every memoised valid node is in the node output, and
both endpoints of every output edge are memoised. -/
theorem process_complete (w : World) : ∀ (fuel : Nat) (st : TravState) (stack : List Item),
    potential w st.memo stack ≤ fuel →
    (∀ i, Item.node i ∈ st.memo → i < w.nodeHeap.length → i ∈ st.outNodes) →
    (∀ j ∈ st.outEdges, ∀ e, w.edgeHeap.get? j = some e →
      (Item.node e.source ∈ st.memo ∨ Item.node e.source ∈ stack) ∧
      (Item.node e.dest ∈ st.memo ∨ Item.node e.dest ∈ stack)) →
    (∀ i, Item.node i ∈ (process w fuel st stack).memo → i < w.nodeHeap.length →
      i ∈ (process w fuel st stack).outNodes) ∧
    (∀ j ∈ (process w fuel st stack).outEdges, ∀ e, w.edgeHeap.get? j = some e →
      Item.node e.source ∈ (process w fuel st stack).memo ∧
      Item.node e.dest ∈ (process w fuel st stack).memo) := by
  intro fuel
  induction fuel with
  | zero =>
    intro st stack hfuel h1 h2
    have hstack : stack = [] := by
      cases stack with
      | nil => rfl
      | cons a l => simp [potential] at hfuel
    subst hstack
    rw [process_nil]
    refine ⟨h1, ?_⟩
    intro j hj e he
    have h := h2 j hj e he
    simpa using h
  | succ fuel ih =>
    intro st stack hfuel h1 h2
    cases stack with
    | nil =>
      rw [process_nil]
      refine ⟨h1, ?_⟩
      intro j hj e he
      have h := h2 j hj e he
      simpa using h
    | cons item rest =>
      by_cases hmem : item ∈ st.memo
      · rw [process_cons_mem hmem]
        refine ih st rest ?_ h1 ?_
        · simp only [potential, List.length_cons] at hfuel ⊢
          omega
        · intro j hj e he
          obtain ⟨hs, hd⟩ := h2 j hj e he
          refine ⟨?_, ?_⟩
          · rcases hs with h | h
            · exact Or.inl h
            · rcases List.mem_cons.mp h with heq | h
              · exact Or.inl (heq ▸ hmem)
              · exact Or.inr h
          · rcases hd with h | h
            · exact Or.inl h
            · rcases List.mem_cons.mp h with heq | h
              · exact Or.inl (heq ▸ hmem)
              · exact Or.inr h
      · cases item with
        | node i =>
          cases hnd : w.nodeHeap.get? i with
          | some nd =>
            rw [process_cons_node hmem hnd]
            have hlt : i < w.nodeHeap.length := by
              by_contra hge
              rw [List.get?_eq_none.mpr (Nat.le_of_not_lt hge)] at hnd
              exact Option.noConfusion hnd
            have hv : Item.node i ∈ allItems w := node_mem_allItems.mpr hlt
            have hnd2 := hnd
            rw [List.get?_eq_getElem?] at hnd2
            have hw : itemWeight w (Item.node i) = 1 + nd.edges.length := by
              simp [itemWeight, hnd2]
            refine ih _ _ ?_ ?_ ?_
            · have hsum := sum_filter_cons_valid hv hmem
              simp only [potential, List.length_cons, List.length_append,
                List.length_map] at hfuel ⊢
              rw [hsum, hw] at hfuel
              omega
            · intro x hx hxlt
              rcases List.mem_cons.mp hx with heq | hx
              · rw [Item.node.inj heq]
                exact List.mem_append_right _ (List.mem_singleton_self _)
              · exact List.mem_append_left _ (h1 x hx hxlt)
            · intro j hj e he
              obtain ⟨hs, hd⟩ := h2 j hj e he
              refine ⟨?_, ?_⟩
              · rcases hs with h | h
                · exact Or.inl (List.mem_cons_of_mem _ h)
                · rcases List.mem_cons.mp h with heq | h
                  · exact Or.inl (heq ▸ List.mem_cons_self _ _)
                  · exact Or.inr (List.mem_append_right _ h)
              · rcases hd with h | h
                · exact Or.inl (List.mem_cons_of_mem _ h)
                · rcases List.mem_cons.mp h with heq | h
                  · exact Or.inl (heq ▸ List.mem_cons_self _ _)
                  · exact Or.inr (List.mem_append_right _ h)
          | none =>
            rw [process_cons_node_none hmem hnd]
            have hv : Item.node i ∉ allItems w := by
              rw [node_mem_allItems]
              intro hlt
              rw [List.get?_eq_get hlt] at hnd
              exact Option.noConfusion hnd
            refine ih _ _ ?_ ?_ ?_
            · simp only [potential, List.length_cons] at hfuel ⊢
              rw [filter_cons_not_valid hv]
              omega
            · intro x hx hxlt
              rcases List.mem_cons.mp hx with heq | hx
              · exfalso
                rw [Item.node.inj heq] at hxlt
                rw [List.get?_eq_get hxlt] at hnd
                exact Option.noConfusion hnd
              · exact h1 x hx hxlt
            · intro j hj e he
              obtain ⟨hs, hd⟩ := h2 j hj e he
              refine ⟨?_, ?_⟩
              · rcases hs with h | h
                · exact Or.inl (List.mem_cons_of_mem _ h)
                · rcases List.mem_cons.mp h with heq | h
                  · exact Or.inl (heq ▸ List.mem_cons_self _ _)
                  · exact Or.inr h
              · rcases hd with h | h
                · exact Or.inl (List.mem_cons_of_mem _ h)
                · rcases List.mem_cons.mp h with heq | h
                  · exact Or.inl (heq ▸ List.mem_cons_self _ _)
                  · exact Or.inr h
        | edge j =>
          cases he : w.edgeHeap.get? j with
          | some e =>
            rw [process_cons_edge hmem he]
            have hlt : j < w.edgeHeap.length := by
              by_contra hge
              rw [List.get?_eq_none.mpr (Nat.le_of_not_lt hge)] at he
              exact Option.noConfusion he
            have hv : Item.edge j ∈ allItems w := edge_mem_allItems.mpr hlt
            have heB := he
            rw [List.get?_eq_getElem?] at heB
            have hw : itemWeight w (Item.edge j) = 3 := by
              simp [itemWeight, heB]
            refine ih _ _ ?_ ?_ ?_
            · have hsum := sum_filter_cons_valid hv hmem
              simp only [potential, List.length_cons] at hfuel ⊢
              rw [hsum, hw] at hfuel
              omega
            · intro x hx hxlt
              rcases List.mem_cons.mp hx with heq | hx
              · exact absurd heq (fun h => Item.noConfusion h)
              · exact h1 x hx hxlt
            · intro j2 hj2 e2 he2
              rcases List.mem_append.mp hj2 with hj2 | hj2
              · obtain ⟨hs, hd⟩ := h2 j2 hj2 e2 he2
                refine ⟨?_, ?_⟩
                · rcases hs with h | h
                  · exact Or.inl (List.mem_cons_of_mem _ h)
                  · rcases List.mem_cons.mp h with heq | h
                    · exact absurd heq (fun hh => Item.noConfusion hh)
                    · exact Or.inr (List.mem_cons_of_mem _ (List.mem_cons_of_mem _ h))
                · rcases hd with h | h
                  · exact Or.inl (List.mem_cons_of_mem _ h)
                  · rcases List.mem_cons.mp h with heq | h
                    · exact absurd heq (fun hh => Item.noConfusion hh)
                    · exact Or.inr (List.mem_cons_of_mem _ (List.mem_cons_of_mem _ h))
              · have hj2eq : j2 = j := List.mem_singleton.mp hj2
                subst hj2eq
                rw [he] at he2
                rcases Option.some.inj he2 with rfl
                exact ⟨Or.inr (List.mem_cons_self _ _),
                  Or.inr (List.mem_cons_of_mem _ (List.mem_cons_self _ _))⟩
          | none =>
            rw [process_cons_edge_none hmem he]
            have hv : Item.edge j ∉ allItems w := by
              rw [edge_mem_allItems]
              intro hlt
              rw [List.get?_eq_get hlt] at he
              exact Option.noConfusion he
            refine ih _ _ ?_ ?_ ?_
            · simp only [potential, List.length_cons] at hfuel ⊢
              rw [filter_cons_not_valid hv]
              omega
            · intro x hx hxlt
              rcases List.mem_cons.mp hx with heq | hx
              · exact absurd heq (fun h => Item.noConfusion h)
              · exact h1 x hx hxlt
            · intro j2 hj2 e2 he2
              obtain ⟨hs, hd⟩ := h2 j2 hj2 e2 he2
              refine ⟨?_, ?_⟩
              · rcases hs with h | h
                · exact Or.inl (List.mem_cons_of_mem _ h)
                · rcases List.mem_cons.mp h with heq | h
                  · exact absurd heq (fun hh => Item.noConfusion hh)
                  · exact Or.inr h
              · rcases hd with h | h
                · exact Or.inl (List.mem_cons_of_mem _ h)
                · rcases List.mem_cons.mp h with heq | h
                  · exact absurd heq (fun hh => Item.noConfusion hh)
                  · exact Or.inr h

theorem potential_init (w : World) (g : Graph) :
    potential w ([] : List Item) (g.nodes.map Item.node ++ g.edges.map Item.edge) ≤
      serializeFuel w g := by
  have hfilter : (allItems w).filter (fun it => decide (it ∉ ([] : List Item))) = allItems w := by
    apply List.filter_eq_self.mpr
    intro a _
    simp
  simp [potential, serializeFuel, hfilter]

/-- Both endpoints of every arc discovered by the traversal are themselves
discovered (and so get vertex lines). -/
theorem traverse_edge_endpoints (w : World) (g : Graph)
    (hWF : ∀ e ∈ w.edgeHeap, e.source < w.nodeHeap.length ∧ e.dest < w.nodeHeap.length) :
    ∀ j ∈ (Graph.traverse w g).outEdges, ∀ e, w.edgeHeap.get? j = some e →
      e.source ∈ (Graph.traverse w g).outNodes ∧ e.dest ∈ (Graph.traverse w g).outNodes := by
  have h := process_complete w (serializeFuel w g) ⟨[], [], []⟩
    (g.nodes.map Item.node ++ g.edges.map Item.edge)
    (potential_init w g)
    (by intro i hi; simp at hi)
    (by intro j hj; simp at hj)
  intro j hj e he
  have hmem : e ∈ w.edgeHeap := List.get?_mem he
  have hpair := h.2 j hj e he
  exact ⟨h.1 e.source hpair.1 (hWF e hmem).1, h.1 e.dest hpair.2 (hWF e hmem).2⟩

/-! Line-shape lemmas for C9 and C10. -/

theorem nodeLine_empty_attrs {w : World} {i : Nat} {nd : NodeObj}
    (h : w.nodeHeap.get? i = some nd) (ha : nd.attrs = []) :
    nodeLine w i = "\t\"" ++ nd.name ++ "\" [];" := by
  have hnode : w.node i = nd := by
    show (w.nodeHeap.get? i).getD _ = nd
    rw [h]
    rfl
  simp only [nodeLine, hnode, ha, List.map_nil]
  rw [show String.intercalate ", " [] = "" from rfl, String.append_empty, String.append_assoc]
  rfl

theorem edgeLine_empty_attrs {w : World} {j : Nat} {e : EdgeObj}
    (h : w.edgeHeap.get? j = some e)
    (ha : e.attrs.filter (fun kv => kv.1 != "source" && kv.1 != "dest") = []) :
    edgeLine w j =
      "\t\"" ++ (w.node e.source).name ++ "\" -> \"" ++ (w.node e.dest).name ++ "\" [];" := by
  have hedge : w.edgeObj j = e := by
    show (w.edgeHeap.get? j).getD _ = e
    rw [h]
    rfl
  simp only [edgeLine, hedge, ha, List.map_nil]
  rw [show String.intercalate ", " [] = "" from rfl, String.append_empty, String.append_assoc]
  rfl

theorem nodeLine_mem_graphLines {w : World} {g : Graph} {i : Nat}
    (h : i ∈ (Graph.traverse w g).outNodes) : nodeLine w i ∈ graphLines w g := by
  have hmem : nodeLine w i ∈ (Graph.traverse w g).outNodes.map (nodeLine w) :=
    List.mem_map_of_mem _ h
  simp only [graphLines, List.mem_append]
  exact Or.inl (Or.inl (Or.inr hmem))

theorem edgeLine_mem_graphLines {w : World} {g : Graph} {j : Nat}
    (h : j ∈ (Graph.traverse w g).outEdges) : edgeLine w j ∈ graphLines w g := by
  have hmem : edgeLine w j ∈ (Graph.traverse w g).outEdges.map (edgeLine w) :=
    List.mem_map_of_mem _ h
  simp only [graphLines, List.mem_append]
  exact Or.inl (Or.inr hmem)

/-- C9: every discovered vertex line and arc line carries the bracketed
attribute list even when the element has no attributes: an attribute-less
vertex is emitted as `\t"<name>" [];` and an arc whose attribute dict (less
the reserved `source`/`dest` keys) is empty as `\t"<src>" -> "<dst>" [];`. -/
theorem empty_attribute_lists_still_bracketed (w : World) (g : Graph) :
    (∀ i nd, i ∈ (Graph.traverse w g).outNodes → w.nodeHeap.get? i = some nd →
      nd.attrs = [] → ("\t\"" ++ nd.name ++ "\" [];") ∈ graphLines w g) ∧
    (∀ j e, j ∈ (Graph.traverse w g).outEdges → w.edgeHeap.get? j = some e →
      e.attrs.filter (fun kv => kv.1 != "source" && kv.1 != "dest") = [] →
      ("\t\"" ++ (w.node e.source).name ++ "\" -> \"" ++ (w.node e.dest).name ++ "\" [];") ∈
        graphLines w g) := by
  constructor
  · intro i nd hi h ha
    rw [← nodeLine_empty_attrs h ha]
    exact nodeLine_mem_graphLines hi
  · intro j e hj h ha
    rw [← edgeLine_empty_attrs h ha]
    exact edgeLine_mem_graphLines hj

theorem empty_attribute_lists_still_bracketed_witness :
    ("\t\"B\" [];") ∈ graphLines wDangling gDangling ∧
    ("\t\"A\" -> \"B\" [];") ∈ graphLines wDangling gDangling := by
  have h := empty_attribute_lists_still_bracketed wDangling gDangling
  exact ⟨h.1 1 ⟨"B", [], [0]⟩ (by decide) rfl rfl, h.2 0 ⟨0, 1, []⟩ (by decide) rfl rfl⟩

/-- C10: after a successful removal of a registered vertex, any arc still
discovered by the traversal that references the removed vertex as source or
dest causes the removed vertex to be rediscovered and to receive a vertex
line in the serialized output. -/
theorem removed_vertex_still_serialized (w : World) (g0 : Graph) (name : String) (i : Nat)
    (g : Graph)
    (hWF : ∀ e ∈ w.edgeHeap, e.source < w.nodeHeap.length ∧ e.dest < w.nodeHeap.length)
    (hreg : assocLookup g0.node_map name = some i)
    (hdel : Graph.delItem w g0 name = (none, g)) :
    ∀ j ∈ (Graph.traverse w g).outEdges, ∀ e, w.edgeHeap.get? j = some e →
      e.source = i ∨ e.dest = i →
      i ∈ (Graph.traverse w g).outNodes ∧ nodeLine w i ∈ graphLines w g := by
  intro j hj e he hie
  have h := traverse_edge_endpoints w g hWF j hj e he
  have hin : i ∈ (Graph.traverse w g).outNodes := by
    rcases hie with h1 | h1
    · exact h1 ▸ h.1
    · exact h1 ▸ h.2
  exact ⟨hin, nodeLine_mem_graphLines hin⟩

theorem removed_vertex_still_serialized_witness :
    1 ∈ (Graph.traverse wDangling (⟨"g", [0], [("A", 0)], [], []⟩ : Graph)).outNodes ∧
    nodeLine wDangling 1 ∈ graphLines wDangling (⟨"g", [0], [("A", 0)], [], []⟩ : Graph) :=
  removed_vertex_still_serialized wDangling gDangling "B" 1 (⟨"g", [0], [("A", 0)], [], []⟩ : Graph)
    (by decide) (by decide) (by decide) 0 (by decide) ⟨0, 1, []⟩ rfl (Or.inr rfl)

end Mastertickets
